import Mathlib

/-!
Verification of the Komari Memory subsystem (komari-bot-nonebot).

Shallow embedding of the memory/knowledge retrieval-and-consolidation
subsystem: the Redis-backed message buffer and trigger counters
(`services/redis_manager.py`), the knowledge engine with its in-memory
keyword index and two-layer hybrid search (`engine.py`), the conversation
memory store (`repositories/conversation_repository.py`,
`services/memory_service.py`), the entity upsert
(`repositories/entity_repository.py`), and the forgetting pipeline
(`services/forgetting_service.py`).

Machine floats of the source are modelled by `ℚ`; the external embedding
model and the pgvector cosine-distance operator are abstract function
parameters; SQL `ORDER BY` is modelled by an insertion sort over the row
list.
-/

/-! ### Generic insertion sort (model of SQL ORDER BY) -/

def orderedInsertB {α : Type} (le : α → α → Bool) (x : α) : List α → List α
  | [] => [x]
  | y :: ys => if le x y then x :: y :: ys else y :: orderedInsertB le x ys

def insertionSortB {α : Type} (le : α → α → Bool) : List α → List α
  | [] => []
  | x :: xs => orderedInsertB le x (insertionSortB le xs)

theorem orderedInsertB_perm {α : Type} (le : α → α → Bool) (x : α) (l : List α) :
    (orderedInsertB le x l).Perm (x :: l) := by
  induction l with
  | nil => simp [orderedInsertB]
  | cons y ys ih =>
    simp only [orderedInsertB]
    by_cases h : le x y
    · simp [h]
    · simp only [h, if_neg, Bool.false_eq_true, not_false_eq_true]
      exact List.Perm.trans (List.Perm.cons y ih) (List.Perm.swap x y ys)

theorem insertionSortB_perm {α : Type} (le : α → α → Bool) (l : List α) :
    (insertionSortB le l).Perm l := by
  induction l with
  | nil => simp [insertionSortB]
  | cons x xs ih =>
    exact List.Perm.trans (orderedInsertB_perm le x (insertionSortB le xs))
      (List.Perm.cons x ih)

theorem mem_orderedInsertB {α : Type} (le : α → α → Bool) (x a : α) (l : List α) :
    a ∈ orderedInsertB le x l ↔ a = x ∨ a ∈ l := by
  have h : a ∈ orderedInsertB le x l ↔ a ∈ x :: l :=
    (orderedInsertB_perm le x l).mem_iff
  simpa using h

theorem orderedInsertB_pairwise {α : Type} (le : α → α → Bool)
    (htot : ∀ a b, le a b = true ∨ le b a = true)
    (htrans : ∀ a b c, le a b = true → le b c = true → le a c = true)
    (x : α) (l : List α) (hl : l.Pairwise (fun a b => le a b = true)) :
    (orderedInsertB le x l).Pairwise (fun a b => le a b = true) := by
  induction l with
  | nil => simp [orderedInsertB]
  | cons y ys ih =>
    rcases hl with _ | ⟨hy, hys⟩
    simp only [orderedInsertB]
    by_cases h : le x y
    · simp only [h, if_pos]
      refine List.Pairwise.cons ?_ (List.Pairwise.cons hy hys)
      intro b hb
      rcases List.mem_cons.1 hb with rfl | hb
      · exact h
      · exact htrans x y b h (hy b hb)
    · simp only [h, Bool.false_eq_true, if_neg, not_false_eq_true]
      refine List.Pairwise.cons ?_ (ih hys)
      intro b hb
      rcases (mem_orderedInsertB le x b ys).1 hb with rfl | hb
      · rcases htot b y with hby | hyb
        · exact absurd hby h
        · exact hyb
      · exact hy b hb

theorem insertionSortB_pairwise {α : Type} (le : α → α → Bool)
    (htot : ∀ a b, le a b = true ∨ le b a = true)
    (htrans : ∀ a b c, le a b = true → le b c = true → le a c = true)
    (l : List α) :
    (insertionSortB le l).Pairwise (fun a b => le a b = true) := by
  induction l with
  | nil => simp [insertionSortB]
  | cons x xs ih => exact orderedInsertB_pairwise le htot htrans x _ ih

/-! ### Message buffer (`RedisManager`, services/redis_manager.py)

The Redis list for key `komari_memory:buffer:{group_id}` is modelled with
its head (index 0) first, so `RPUSH` appends at the tail of the Lean list.
-/

structure MessageSchema where
  user_id : String
  group_id : String
  content : String
  timestamp : ℚ
  message_id : String
deriving Repr, DecidableEq

/-- `RedisManager.push_message`: `RPUSH` the serialized message, then
`LTRIM key 0 (message_buffer_size - 1)`, which keeps the elements at
indices `0 .. size-1`, i.e. the first `size` elements of the list. -/
def pushMessage (bufferSize : ℕ) (buf : List MessageSchema) (m : MessageSchema) :
    List MessageSchema :=
  (buf ++ [m]).take bufferSize

/-- `RedisManager.get_buffer`: `LRANGE key 0 (limit - 1)`, the first
`limit` elements.  (For `limit = 0` the Redis end index `-1` denotes the
last element, so the whole list is returned; all call sites pass
`limit ≥ 1`.) -/
def getBuffer (buf : List MessageSchema) (limit : ℕ) : List MessageSchema :=
  if limit = 0 then buf else buf.take limit

/-- Pushing a whole stream of messages into an initially empty buffer. -/
def pushAll (bufferSize : ℕ) (ms : List MessageSchema) : List MessageSchema :=
  ms.foldl (pushMessage bufferSize) []

theorem take_append_take_left {α : Type} (l r : List α) (n : ℕ) :
    ((l.take n) ++ r).take n = (l ++ r).take n := by
  by_cases h : l.length ≤ n
  · rw [List.take_of_length_le h]
  · have h1 : n ≤ (l.take n).length := by
      simp only [List.length_take]
      omega
    rw [List.take_append_of_le_length h1,
      List.take_append_of_le_length (by omega), List.take_take, Nat.min_self]

theorem foldl_pushMessage (bufferSize : ℕ) (ms buf : List MessageSchema)
    (h : buf.length ≤ bufferSize) :
    ms.foldl (pushMessage bufferSize) buf = (buf ++ ms).take bufferSize := by
  induction ms generalizing buf with
  | nil => simp [List.take_of_length_le h]
  | cons m rest ih =>
    have hlen : (pushMessage bufferSize buf m).length ≤ bufferSize := by
      simp [pushMessage, List.length_take]
    rw [List.foldl_cons, ih _ hlen, pushMessage, take_append_take_left,
      List.append_assoc, List.singleton_append]

theorem pushAll_eq_take (bufferSize : ℕ) (ms : List MessageSchema) :
    pushAll bufferSize ms = ms.take bufferSize := by
  simpa using foldl_pushMessage bufferSize ms [] (by simp)

def msgT1 : MessageSchema := ⟨"u1", "g1", "hello", 1, "m1"⟩

def msgT2 : MessageSchema := ⟨"u2", "g1", "hi", 2, "m2"⟩

def msgT3 : MessageSchema := ⟨"u3", "g1", "hey", 3, "m3"⟩

/-- C1: with `message_buffer_size = 2`, pushing three messages in timestamp
order retains the two OLDEST messages (`RPUSH` then `LTRIM 0 size-1` trims
the freshly appended element once the list is full), not the two most
recent ones which the bounded-ring claim requires; and `get_buffer` with
`limit = 1` returns the oldest buffered message, not the most recent one. -/
theorem push_message_keeps_oldest :
    pushAll 2 [msgT1, msgT2, msgT3] = [msgT1, msgT2]
    ∧ pushAll 2 [msgT1, msgT2, msgT3] ≠ [msgT2, msgT3]
    ∧ getBuffer (pushAll 2 [msgT1, msgT2, msgT3]) 1 = [msgT1]
    ∧ msgT1.timestamp < msgT2.timestamp ∧ msgT2.timestamp < msgT3.timestamp := by
  refine ⟨by decide, by decide, by decide, by decide, by decide⟩

/-! ### Per-conversation Redis counters and summary trigger
(`RedisManager`, services/redis_manager.py) -/

structure KomariMemoryConfig where
  message_buffer_size : ℕ
  summary_message_threshold : ℤ
  summary_time_threshold : ℚ
  summary_token_threshold : ℤ
  forgetting_enabled : Bool
  forgetting_importance_threshold : ℤ
deriving Repr, DecidableEq

/-- The Redis keys of one conversation (`group_id`): the buffer list, the
token and message counters (`GET` of an absent key reads as 0), and the
`komari_memory:last_summary:{group_id}` key, absent until first set. -/
structure GroupState where
  buffer : List MessageSchema
  tokens : ℤ
  messages : ℤ
  lastSummary : Option ℚ
deriving Repr, DecidableEq

/-- A fresh conversation: none of its keys exist yet. -/
def initialGroupState : GroupState := ⟨[], 0, 0, none⟩

/-- The `RedisManager` operations that touch a conversation's keys. -/
inductive RedisOp where
  | push (m : MessageSchema)
  | incrTokens (n : ℤ)
  | resetTokens
  | incrMessageCount
  | resetMessageCount
  | deleteBuffer
  | updateLastSummary (now : ℚ)
deriving Repr, DecidableEq

def isUpdateLastSummary : RedisOp → Bool
  | RedisOp.updateLastSummary _ => true
  | _ => false

def applyRedisOp (bufferSize : ℕ) (st : GroupState) : RedisOp → GroupState
  | RedisOp.push m => { st with buffer := pushMessage bufferSize st.buffer m }
  | RedisOp.incrTokens n => { st with tokens := st.tokens + n }
  | RedisOp.resetTokens => { st with tokens := 0 }
  | RedisOp.incrMessageCount => { st with messages := st.messages + 1 }
  | RedisOp.resetMessageCount => { st with messages := 0 }
  | RedisOp.deleteBuffer => { st with buffer := [] }
  | RedisOp.updateLastSummary now => { st with lastSummary := some now }

def runRedisOps (bufferSize : ℕ) (st : GroupState) (ops : List RedisOp) : GroupState :=
  ops.foldl (applyRedisOp bufferSize) st

/-- `RedisManager.should_trigger_summary`: message-count threshold first;
then, only when the `last_summary` key exists, the elapsed-time threshold;
finally the token threshold. -/
def shouldTriggerSummary (cfg : KomariMemoryConfig) (st : GroupState) (now : ℚ) : Bool :=
  if st.messages ≥ cfg.summary_message_threshold then true
  else
    match st.lastSummary with
    | some ts =>
        if now - ts ≥ cfg.summary_time_threshold then true
        else decide (st.tokens ≥ cfg.summary_token_threshold)
    | none => decide (st.tokens ≥ cfg.summary_token_threshold)

theorem lastSummary_of_no_update (bufferSize : ℕ) (ops : List RedisOp)
    (st : GroupState) (h : ∀ op ∈ ops, isUpdateLastSummary op = false) :
    (runRedisOps bufferSize st ops).lastSummary = st.lastSummary := by
  induction ops generalizing st with
  | nil => rfl
  | cons op rest ih =>
    have hop := h op (by simp)
    have hrest : ∀ o ∈ rest, isUpdateLastSummary o = false := by
      intro o ho
      exact h o (by simp [ho])
    simp only [runRedisOps, List.foldl_cons] at ih ⊢
    rw [ih _ hrest]
    cases op with
    | updateLastSummary t => simp [isUpdateLastSummary] at hop
    | push m => rfl
    | incrTokens n => rfl
    | resetTokens => rfl
    | incrMessageCount => rfl
    | resetMessageCount => rfl
    | deleteBuffer => rfl

/-- C10: if `update_last_summary` is never called for a conversation
starting from its fresh state, the `last_summary` key stays absent, and
`should_trigger_summary` reduces to the message-count and token
conditions alone: the elapsed-time condition can never make it true,
however large `now` is. -/
theorem no_time_trigger_before_first_summary (cfg : KomariMemoryConfig)
    (ops : List RedisOp)
    (h : ops.all (fun op => !isUpdateLastSummary op) = true) :
    (runRedisOps cfg.message_buffer_size initialGroupState ops).lastSummary = none
    ∧ ∀ now : ℚ,
        shouldTriggerSummary cfg
            (runRedisOps cfg.message_buffer_size initialGroupState ops) now
          = (decide ((runRedisOps cfg.message_buffer_size initialGroupState ops).messages
                ≥ cfg.summary_message_threshold)
             || decide ((runRedisOps cfg.message_buffer_size initialGroupState ops).tokens
                ≥ cfg.summary_token_threshold)) := by
  have h' : ∀ op ∈ ops, isUpdateLastSummary op = false := by
    intro op hop
    have := List.all_eq_true.1 h op hop
    simpa using this
  have hnone : (runRedisOps cfg.message_buffer_size initialGroupState ops).lastSummary
      = none := lastSummary_of_no_update _ _ _ h'
  refine ⟨hnone, ?_⟩
  intro now
  by_cases hm : (runRedisOps cfg.message_buffer_size initialGroupState ops).messages
      ≥ cfg.summary_message_threshold
  · simp [shouldTriggerSummary, hm]
  · simp [shouldTriggerSummary, hm, hnone]

def cfgEx : KomariMemoryConfig := ⟨200, 50, 3600, 1000, true, 3⟩

def redisOpsEx : List RedisOp :=
  [RedisOp.push msgT1, RedisOp.incrMessageCount, RedisOp.incrTokens 5,
   RedisOp.resetTokens, RedisOp.deleteBuffer]

/-- Witness for C10 at a concrete trace without `update_last_summary`. -/
theorem no_time_trigger_before_first_summary_witness :
    (redisOpsEx.all (fun op => !isUpdateLastSummary op) = true)
    ∧ shouldTriggerSummary cfgEx
        (runRedisOps cfgEx.message_buffer_size initialGroupState redisOpsEx) 999999
      = false := by
  have h := no_time_trigger_before_first_summary cfgEx redisOpsEx (by decide)
  refine ⟨by decide, ?_⟩
  rw [h.2 999999]
  decide

/-! ### Knowledge engine: in-memory keyword index (`MemoryEngine`, engine.py)

`self._keyword_index` is a `defaultdict(set)` from case-folded keyword to
a set of record ids.  It is modelled as an insertion-ordered association
list; `idxGet` is the lookup with the defaultdict's empty-set default. -/

abbrev KwIndex := List (String × Finset ℤ)

def idxGet (idx : KwIndex) (kw : String) : Finset ℤ :=
  match idx.find? (fun p => p.1 == kw) with
  | some p => p.2
  | none => ∅

/-- `self._keyword_index[kw].add(kid)` on a `defaultdict(set)`: update the
entry in place when the key exists, otherwise create it. -/
def dictAdd (idx : KwIndex) (kw : String) (kid : ℤ) : KwIndex :=
  if idx.any (fun p => p.1 == kw) then
    idx.map (fun p => if p.1 == kw then (p.1, insert kid p.2) else p)
  else idx ++ [(kw, {kid})]

/-- `if kw in self._keyword_index: self._keyword_index[kw].discard(kid)`. -/
def dictDiscard (idx : KwIndex) (kw : String) (kid : ℤ) : KwIndex :=
  if idx.any (fun p => p.1 == kw) then
    idx.map (fun p => if p.1 == kw then (p.1, p.2.erase kid) else p)
  else idx

/-- `for kw in keywords: self._keyword_index[kw.lower()].add(kid)`. -/
def indexInsertKws (idx : KwIndex) (kid : ℤ) (kws : List String) : KwIndex :=
  kws.foldl (fun acc kw => dictAdd acc kw.toLower kid) idx

/-- The removal loop of `delete_knowledge` / `update_knowledge`. -/
def indexDeleteKws (idx : KwIndex) (kid : ℤ) (kws : List String) : KwIndex :=
  kws.foldl (fun acc kw => dictDiscard acc kw.toLower kid) idx

/-- A row of the `komari_knowledge` table.  A SQL `NULL` keywords array is
represented by `[]` (the source reads it back as `row["keywords"] or []`).
-/
structure Knowledge where
  id : ℤ
  content : String
  keywords : List String
  category : String
  embedding : Option (List ℚ)
  notes : Option String
deriving Repr, DecidableEq

/-- `MemoryEngine._build_keyword_index`: scan all rows whose keywords
array is non-NULL and non-empty and insert every case-folded keyword. -/
def buildKeywordIndex (db : List Knowledge) : KwIndex :=
  (db.filter (fun r => !r.keywords.isEmpty)).foldl
    (fun acc r => indexInsertKws acc r.id r.keywords) []

structure EngineState where
  db : List Knowledge
  keywordIndex : KwIndex
  indexLoaded : Bool
  nextId : ℤ

/-- `MemoryEngine.add_knowledge`: INSERT the row (serial id), then add
every keyword (case-folded) to the in-memory index. -/
def addKnowledge (embed : String → List ℚ) (st : EngineState) (content : String)
    (keywords : List String) (category : String) (notes : Option String) :
    ℤ × EngineState :=
  let kid := st.nextId
  (kid,
   { st with
     db := st.db ++ [{ id := kid, content := content, keywords := keywords,
                       category := category, embedding := some (embed content),
                       notes := notes }],
     keywordIndex := indexInsertKws st.keywordIndex kid keywords,
     nextId := st.nextId + 1 })

/-- `MemoryEngine.delete_knowledge`: look the row up first (for its
keywords); if absent return `False` without touching anything; otherwise
DELETE the row and discard its id from each keyword's index entry. -/
def deleteKnowledge (st : EngineState) (kid : ℤ) : Bool × EngineState :=
  match st.db.find? (fun r => r.id == kid) with
  | none => (false, st)
  | some row =>
      (true,
       { st with
         db := st.db.filter (fun r => !(r.id == kid)),
         keywordIndex := indexDeleteKws st.keywordIndex kid row.keywords })

/-- The column assignments of `update_knowledge`'s `UPDATE ... WHERE id = $1`
on one row: each provided field overwrites the column, the embedding is
regenerated when the content changes. -/
def applyRowUpdate (embed : String → List ℚ) (kid : ℤ)
    (newContent : Option String) (newKeywords : Option (List String))
    (newCategory : Option String) (newNotes : Option String)
    (r : Knowledge) : Knowledge :=
  if r.id == kid then
    { r with
      content := newContent.getD r.content,
      embedding := (match newContent with
        | some c => some (embed c)
        | none => r.embedding),
      keywords := newKeywords.getD r.keywords,
      category := newCategory.getD r.category,
      notes := (match newNotes with
        | some n => some n
        | none => r.notes) }
  else r

/-- `MemoryEngine.update_knowledge`.  All-`None` arguments raise
`ValueError` before any mutation (result `none`); a missing id returns
`False`; otherwise the matched row's provided columns are updated, the old
keywords are discarded from the index and the new ones (old ones when not
provided) inserted. -/
def updateKnowledge (embed : String → List ℚ) (st : EngineState) (kid : ℤ)
    (newContent : Option String) (newKeywords : Option (List String))
    (newCategory : Option String) (newNotes : Option String) :
    Option Bool × EngineState :=
  if newContent.isNone && newKeywords.isNone && newCategory.isNone
      && newNotes.isNone then
    (none, st)
  else
    match st.db.find? (fun r => r.id == kid) with
    | none => (some false, st)
    | some row =>
        (some true,
         { st with
           db := st.db.map
             (applyRowUpdate embed kid newContent newKeywords newCategory newNotes),
           keywordIndex :=
             indexInsertKws (indexDeleteKws st.keywordIndex kid row.keywords)
               kid (newKeywords.getD row.keywords) })

inductive KnowledgeOp where
  | add (content : String) (keywords : List String) (category : String)
      (notes : Option String)
  | update (kid : ℤ) (newContent : Option String)
      (newKeywords : Option (List String)) (newCategory : Option String)
      (newNotes : Option String)
  | del (kid : ℤ)

def applyKnowledgeOp (embed : String → List ℚ) (st : EngineState) :
    KnowledgeOp → EngineState
  | KnowledgeOp.add c k cat n => (addKnowledge embed st c k cat n).2
  | KnowledgeOp.update kid c k cat n => (updateKnowledge embed st kid c k cat n).2
  | KnowledgeOp.del kid => (deleteKnowledge st kid).2

def runKnowledgeOps (embed : String → List ℚ) (st : EngineState)
    (ops : List KnowledgeOp) : EngineState :=
  ops.foldl (applyKnowledgeOp embed) st

/-! ### Keyword-index / store consistency (C2) -/

theorem idxGet_nil (kw : String) : idxGet [] kw = ∅ := rfl

theorem idxGet_of_no_entry (idx : KwIndex) (kw : String)
    (h : ∀ p ∈ idx, (p.1 == kw) = false) : idxGet idx kw = ∅ := by
  have hn : idx.find? (fun p => p.1 == kw) = none :=
    List.find?_eq_none.2 (fun x hx => by simp [h x hx])
  simp [idxGet, hn]

theorem find?_append_of_none {α : Type} (p : α → Bool) (l₁ l₂ : List α)
    (h : l₁.find? p = none) : (l₁ ++ l₂).find? p = l₂.find? p := by
  induction l₁ with
  | nil => rfl
  | cons a l ih =>
    by_cases ha : p a = true
    · simp only [List.find?_cons, ha] at h
      exact absurd h (by simp)
    · have ha' : p a = false := by simpa using ha
      simp only [List.find?_cons, ha'] at h
      simp only [List.cons_append, List.find?_cons, ha']
      exact ih h

theorem find?_append_of_some {α : Type} (p : α → Bool) (l₁ l₂ : List α) (q : α)
    (h : l₁.find? p = some q) : (l₁ ++ l₂).find? p = some q := by
  induction l₁ with
  | nil => exact absurd h (by simp)
  | cons a l ih =>
    by_cases ha : p a = true
    · simp only [List.find?_cons, ha] at h
      simp only [List.cons_append, List.find?_cons, ha]
      exact h
    · have ha' : p a = false := by simpa using ha
      simp only [List.find?_cons, ha'] at h
      simp only [List.cons_append, List.find?_cons, ha']
      exact ih h

theorem idxGet_mapUpdate (idx : KwIndex)
    (f : String × Finset ℤ → String × Finset ℤ)
    (hf : ∀ p, (f p).1 = p.1) (kw : String) :
    idxGet (idx.map f) kw
      = (match idx.find? (fun p => p.1 == kw) with
         | some q => (f q).2
         | none => ∅) := by
  induction idx with
  | nil => rfl
  | cons q idx ih =>
    by_cases hq : (q.1 == kw) = true
    · have hfq : ((f q).1 == kw) = true := by rw [hf]; exact hq
      simp only [List.map_cons, idxGet, List.find?_cons, hfq, hq]
    · have hq' : (q.1 == kw) = false := by simpa using hq
      have hfq : ((f q).1 == kw) = false := by rw [hf]; exact hq'
      simp only [List.map_cons, idxGet, List.find?_cons, hfq, hq']
      exact ih

theorem idxGet_dictAdd (idx : KwIndex) (kw0 : String) (kid : ℤ) (kw : String) :
    idxGet (dictAdd idx kw0 kid) kw
      = if kw = kw0 then insert kid (idxGet idx kw0) else idxGet idx kw := by
  by_cases hany : idx.any (fun p => p.1 == kw0) = true
  · obtain ⟨q0, hq0mem, hq0⟩ := List.any_eq_true.1 hany
    rw [dictAdd, if_pos hany,
      idxGet_mapUpdate _ _ (fun p => by by_cases h : (p.1 == kw0) = true <;> simp [h])]
    by_cases hkw : kw = kw0
    · subst hkw
      cases hfind : idx.find? (fun p => p.1 == kw) with
      | none => exact absurd hq0 (List.find?_eq_none.1 hfind q0 hq0mem)
      | some q =>
        have hq1 : (q.1 == kw) = true := by
          have h := List.find?_some hfind
          simpa using h
        simp [idxGet, hfind, hq1]
    · cases hfind : idx.find? (fun p => p.1 == kw) with
      | none => simp [idxGet, hfind, if_neg hkw]
      | some q =>
        have hq1 : q.1 = kw := by
          have h := List.find?_some hfind
          simpa using h
        have hq2 : (q.1 == kw0) = false := by
          rw [hq1]
          exact beq_eq_false_iff_ne.2 hkw
        simp [idxGet, hfind, hq2, if_neg hkw]
  · rw [dictAdd, if_neg hany]
    have hno : ∀ p ∈ idx, ¬((p.1 == kw0) = true) := by
      intro p hp h
      exact hany (List.any_eq_true.2 ⟨p, hp, h⟩)
    have hnone : idx.find? (fun p => p.1 == kw0) = none := List.find?_eq_none.2 hno
    by_cases hkw : kw = kw0
    · subst hkw
      have hget : idxGet idx kw = ∅ :=
        idxGet_of_no_entry idx kw (fun p hp => by simpa using hno p hp)
      rw [if_pos rfl, hget]
      have hsingle : ((kw, ({kid} : Finset ℤ)).1 == kw) = true := by simp
      rw [idxGet, find?_append_of_none _ _ _ hnone]
      simp only [List.find?_cons, hsingle]
      simp
    · rw [if_neg hkw]
      cases hfind : idx.find? (fun p => p.1 == kw) with
      | none =>
        have hsingle : (((kw0, ({kid} : Finset ℤ)) : String × Finset ℤ).1 == kw) = false := by
          simp only
          exact beq_eq_false_iff_ne.2 (fun h => hkw h.symm)
        rw [idxGet, find?_append_of_none _ _ _ hfind]
        simp only [List.find?_cons, hsingle, List.find?_nil]
        simp [idxGet, hfind]
      | some q =>
        rw [idxGet, find?_append_of_some _ _ _ _ hfind]
        simp [idxGet, hfind]

theorem idxGet_dictDiscard (idx : KwIndex) (kw0 : String) (kid : ℤ) (kw : String) :
    idxGet (dictDiscard idx kw0 kid) kw
      = if kw = kw0 then (idxGet idx kw0).erase kid else idxGet idx kw := by
  by_cases hany : idx.any (fun p => p.1 == kw0) = true
  · obtain ⟨q0, hq0mem, hq0⟩ := List.any_eq_true.1 hany
    rw [dictDiscard, if_pos hany,
      idxGet_mapUpdate _ _ (fun p => by by_cases h : (p.1 == kw0) = true <;> simp [h])]
    by_cases hkw : kw = kw0
    · subst hkw
      cases hfind : idx.find? (fun p => p.1 == kw) with
      | none => exact absurd hq0 (List.find?_eq_none.1 hfind q0 hq0mem)
      | some q =>
        have hq1 : (q.1 == kw) = true := by
          have h := List.find?_some hfind
          simpa using h
        simp [idxGet, hfind, hq1]
    · cases hfind : idx.find? (fun p => p.1 == kw) with
      | none => simp [idxGet, hfind, if_neg hkw]
      | some q =>
        have hq1 : q.1 = kw := by
          have h := List.find?_some hfind
          simpa using h
        have hq2 : (q.1 == kw0) = false := by
          rw [hq1]
          exact beq_eq_false_iff_ne.2 hkw
        simp [idxGet, hfind, hq2, if_neg hkw]
  · rw [dictDiscard, if_neg hany]
    have hno : ∀ p ∈ idx, ¬((p.1 == kw0) = true) := by
      intro p hp h
      exact hany (List.any_eq_true.2 ⟨p, hp, h⟩)
    by_cases hkw : kw = kw0
    · subst hkw
      rw [if_pos rfl, idxGet_of_no_entry idx kw (fun p hp => by simpa using hno p hp)]
      simp
    · rw [if_neg hkw]

theorem idxGet_indexInsertKws (idx : KwIndex) (kid : ℤ) (kws : List String)
    (kw : String) :
    idxGet (indexInsertKws idx kid kws) kw
      = if kw ∈ kws.map String.toLower then insert kid (idxGet idx kw)
        else idxGet idx kw := by
  induction kws generalizing idx with
  | nil => simp [indexInsertKws]
  | cons a t ih =>
    simp only [indexInsertKws, List.foldl_cons] at ih ⊢
    rw [ih (dictAdd idx a.toLower kid)]
    by_cases ha : kw = a.toLower
    · simp [idxGet_dictAdd, ha, Finset.insert_idem]
    · simp [idxGet_dictAdd, ha]

theorem idxGet_indexDeleteKws (idx : KwIndex) (kid : ℤ) (kws : List String)
    (kw : String) :
    idxGet (indexDeleteKws idx kid kws) kw
      = if kw ∈ kws.map String.toLower then (idxGet idx kw).erase kid
        else idxGet idx kw := by
  induction kws generalizing idx with
  | nil => simp [indexDeleteKws]
  | cons a t ih =>
    simp only [indexDeleteKws, List.foldl_cons] at ih ⊢
    rw [ih (dictDiscard idx a.toLower kid)]
    by_cases ha : kw = a.toLower
    · simp [idxGet_dictDiscard, ha, Finset.erase_idem]
    · simp [idxGet_dictDiscard, ha]

/-- A record carries the (already case-folded) keyword `kw`. -/
def recordHasKw (kw : String) (r : Knowledge) : Prop :=
  kw ∈ r.keywords.map String.toLower

instance (kw : String) (r : Knowledge) : Decidable (recordHasKw kw r) := by
  unfold recordHasKw
  infer_instance

/-- The ids of the persisted records carrying keyword `kw`: the value a
full index rebuild assigns to `kw`. -/
def idsOf (db : List Knowledge) (kw : String) : Finset ℤ :=
  ((db.filter (fun r => decide (recordHasKw kw r))).map (fun r => r.id)).toFinset

theorem mem_idsOf (db : List Knowledge) (kw : String) (x : ℤ) :
    x ∈ idsOf db kw ↔ ∃ r ∈ db, recordHasKw kw r ∧ r.id = x := by
  simp only [idsOf, List.mem_toFinset, List.mem_map, List.mem_filter,
    decide_eq_true_eq]
  constructor
  · rintro ⟨r, ⟨hr, hkw⟩, hid⟩
    exact ⟨r, hr, hkw, hid⟩
  · rintro ⟨r, hr, hkw, hid⟩
    exact ⟨r, ⟨hr, hkw⟩, hid⟩

theorem idsOf_cons (r : Knowledge) (db : List Knowledge) (kw : String) :
    idsOf (r :: db) kw
      = if recordHasKw kw r then insert r.id (idsOf db kw) else idsOf db kw := by
  by_cases h : recordHasKw kw r
  · simp [idsOf, List.filter_cons, h]
  · simp [idsOf, List.filter_cons, h]

theorem idxGet_foldInsert (l : List Knowledge) (idx₀ : KwIndex) (kw : String) :
    idxGet (l.foldl (fun acc r => indexInsertKws acc r.id r.keywords) idx₀) kw
      = idsOf l kw ∪ idxGet idx₀ kw := by
  induction l generalizing idx₀ with
  | nil => simp [idsOf]
  | cons r t ih =>
    rw [List.foldl_cons, ih, idsOf_cons, idxGet_indexInsertKws]
    by_cases h : recordHasKw kw r
    · rw [if_pos h, if_pos (by simpa [recordHasKw] using h)]
      rw [Finset.insert_union, Finset.union_insert]
    · rw [if_neg h, if_neg (by simpa [recordHasKw] using h)]

theorem idsOf_filter_nonempty (db : List Knowledge) (kw : String) :
    idsOf (db.filter (fun r => !r.keywords.isEmpty)) kw = idsOf db kw := by
  ext x
  simp only [mem_idsOf, List.mem_filter]
  constructor
  · rintro ⟨r, ⟨hr, _⟩, hkw, hid⟩
    exact ⟨r, hr, hkw, hid⟩
  · rintro ⟨r, hr, hkw, hid⟩
    refine ⟨r, ⟨hr, ?_⟩, hkw, hid⟩
    rcases List.mem_map.1 hkw with ⟨a, ha, _⟩
    simp [List.isEmpty_iff]
    exact fun h => by simp [h] at ha

theorem idxGet_buildKeywordIndex (db : List Knowledge) (kw : String) :
    idxGet (buildKeywordIndex db) kw = idsOf db kw := by
  rw [buildKeywordIndex, idxGet_foldInsert, idxGet_nil, Finset.union_empty,
    idsOf_filter_nonempty]

/-- Invariant of the engine: distinct record ids, ids below the serial
counter, and the in-memory index agreeing pointwise with a full rebuild. -/
def engineInv (st : EngineState) : Prop :=
  (st.db.map (fun r => r.id)).Nodup
  ∧ (∀ r ∈ st.db, r.id < st.nextId)
  ∧ (∀ kw, idxGet st.keywordIndex kw = idsOf st.db kw)

theorem mem_db_id_eq (db : List Knowledge)
    (hnd : (db.map (fun r => r.id)).Nodup) (r₁ r₂ : Knowledge)
    (h1 : r₁ ∈ db) (h2 : r₂ ∈ db) (hid : r₁.id = r₂.id) : r₁ = r₂ :=
  List.inj_on_of_nodup_map hnd h1 h2 hid

theorem kid_not_mem_idsOf (db : List Knowledge) (kw : String) (kid : ℤ)
    (hnd : (db.map (fun r => r.id)).Nodup) (row : Knowledge)
    (hrow : row ∈ db) (hrowid : row.id = kid)
    (hkw : ¬ recordHasKw kw row) : kid ∉ idsOf db kw := by
  intro hmem
  rcases (mem_idsOf _ _ _).1 hmem with ⟨s, hs, hskw, hsid⟩
  have hseq : s = row := mem_db_id_eq db hnd s row hs hrow (by rw [hsid, hrowid])
  rw [hseq] at hskw
  exact hkw hskw

theorem idsOf_append_single (db : List Knowledge) (r : Knowledge) (kw : String) :
    idsOf (db ++ [r]) kw
      = if recordHasKw kw r then insert r.id (idsOf db kw) else idsOf db kw := by
  by_cases h : recordHasKw kw r
  · rw [if_pos h]
    ext x
    simp only [mem_idsOf, List.mem_append, List.mem_singleton, Finset.mem_insert]
    constructor
    · rintro ⟨s, hs | rfl, hkw, hid⟩
      · exact Or.inr ⟨s, hs, hkw, hid⟩
      · exact Or.inl hid.symm
    · rintro (rfl | ⟨s, hs, hkw, hid⟩)
      · exact ⟨r, Or.inr rfl, h, rfl⟩
      · exact ⟨s, Or.inl hs, hkw, hid⟩
  · rw [if_neg h]
    ext x
    simp only [mem_idsOf, List.mem_append, List.mem_singleton]
    constructor
    · rintro ⟨s, hs | rfl, hkw, hid⟩
      · exact ⟨s, hs, hkw, hid⟩
      · exact absurd hkw h
    · rintro ⟨s, hs, hkw, hid⟩
      exact ⟨s, Or.inl hs, hkw, hid⟩

theorem engineInv_addKnowledge (embed : String → List ℚ) (st : EngineState)
    (c : String) (k : List String) (cat : String) (n : Option String)
    (h : engineInv st) : engineInv (addKnowledge embed st c k cat n).2 := by
  obtain ⟨hnd, hlt, hidx⟩ := h
  refine ⟨?_, ?_, ?_⟩
  · simp only [addKnowledge, List.map_append, List.map_cons, List.map_nil]
    rw [List.nodup_append]
    refine ⟨hnd, by simp, ?_⟩
    intro x hx
    rcases List.mem_map.1 hx with ⟨r, hr, hrid⟩
    have := hlt r hr
    simp only [List.mem_singleton]
    intro hxeq
    rw [hxeq] at hrid
    omega
  · intro r hr
    simp only [addKnowledge, List.mem_append, List.mem_singleton] at hr
    rcases hr with hr | rfl
    · have := hlt r hr
      simp only [addKnowledge]
      omega
    · simp [addKnowledge]
  · intro kw
    simp only [addKnowledge]
    rw [idxGet_indexInsertKws, idsOf_append_single, hidx kw]
    simp [recordHasKw]

theorem engineInv_deleteKnowledge (st : EngineState) (kid : ℤ)
    (h : engineInv st) : engineInv (deleteKnowledge st kid).2 := by
  obtain ⟨hnd, hlt, hidx⟩ := h
  cases hfind : st.db.find? (fun r => r.id == kid) with
  | none => simpa [deleteKnowledge, hfind] using ⟨hnd, hlt, hidx⟩
  | some row =>
    have hrowmem : row ∈ st.db := List.mem_of_find?_eq_some hfind
    have hrowid : row.id = kid := by
      have hp := List.find?_some hfind
      simpa using hp
    simp only [deleteKnowledge, hfind]
    refine ⟨?_, ?_, ?_⟩
    · exact hnd.sublist ((List.filter_sublist _).map _)
    · intro r hr
      exact hlt r (List.mem_of_mem_filter hr)
    · intro kw
      rw [idxGet_indexDeleteKws, hidx kw]
      have hfilter : idsOf (st.db.filter (fun r => !(r.id == kid))) kw
          = (idsOf st.db kw).erase kid := by
        ext x
        simp only [mem_idsOf, List.mem_filter, Finset.mem_erase]
        constructor
        · rintro ⟨s, ⟨hs, hneq⟩, hkw, hid⟩
          have hsid : s.id ≠ kid := by simpa using hneq
          refine ⟨by rw [← hid]; exact hsid, ?_⟩
          exact ⟨s, hs, hkw, hid⟩
        · rintro ⟨hx, s, hs, hkw, hid⟩
          refine ⟨s, ⟨hs, ?_⟩, hkw, hid⟩
          simp only [Bool.not_eq_eq_eq_not, Bool.not_true, beq_eq_false_iff_ne]
          rw [hid]
          exact hx
      rw [hfilter]
      by_cases hkw : kw ∈ row.keywords.map String.toLower
      · rw [if_pos hkw]
      · rw [if_neg hkw]
        rw [Finset.erase_eq_of_not_mem
          (kid_not_mem_idsOf st.db kw kid hnd row hrowmem hrowid hkw)]

theorem applyRowUpdate_id (embed : String → List ℚ) (kid : ℤ)
    (c k cat n : _) (r : Knowledge) :
    (applyRowUpdate embed kid c k cat n r).id = r.id := by
  unfold applyRowUpdate
  by_cases h : (r.id == kid) = true <;> simp [h]

theorem applyRowUpdate_of_ne (embed : String → List ℚ) (kid : ℤ)
    (c k cat n : _) (r : Knowledge) (h : r.id ≠ kid) :
    applyRowUpdate embed kid c k cat n r = r := by
  unfold applyRowUpdate
  rw [if_neg (by simpa using h)]

theorem applyRowUpdate_keywords_of_eq (embed : String → List ℚ) (kid : ℤ)
    (c : Option String) (k : Option (List String)) (cat n : Option String)
    (r : Knowledge) (h : r.id = kid) :
    (applyRowUpdate embed kid c k cat n r).keywords = k.getD r.keywords := by
  unfold applyRowUpdate
  rw [if_pos (by simpa using h)]

theorem idsOf_map_update (embed : String → List ℚ) (kid : ℤ)
    (c : Option String) (k : Option (List String)) (cat n : Option String)
    (db : List Knowledge) (hnd : (db.map (fun r => r.id)).Nodup)
    (row : Knowledge) (hrow : row ∈ db) (hrowid : row.id = kid) (kw : String) :
    idsOf (db.map (applyRowUpdate embed kid c k cat n)) kw
      = if kw ∈ (k.getD row.keywords).map String.toLower
        then insert kid ((idsOf db kw).erase kid)
        else (idsOf db kw).erase kid := by
  set u := applyRowUpdate embed kid c k cat n with hu
  have hukw : recordHasKw kw (u row) ↔ kw ∈ (k.getD row.keywords).map String.toLower := by
    unfold recordHasKw
    rw [hu, applyRowUpdate_keywords_of_eq _ _ _ _ _ _ _ hrowid]
  ext x
  simp only [mem_idsOf]
  constructor
  · rintro ⟨s', hs', hkw, hid⟩
    rcases List.mem_map.1 hs' with ⟨s, hs, rfl⟩
    by_cases hsid : s.id = kid
    · have hseq : s = row := mem_db_id_eq db hnd s row hs hrow (by rw [hsid, hrowid])
      subst hseq
      have hxkid : x = kid := by rw [← hid, hu, applyRowUpdate_id, hsid]
      rw [if_pos (hukw.1 hkw)]
      rw [hxkid]
      exact Finset.mem_insert_self _ _
    · have hus : u s = s := applyRowUpdate_of_ne _ _ _ _ _ _ _ hsid
      rw [hus] at hkw hid
      have hxne : x ≠ kid := by rw [← hid]; exact hsid
      have hxmem : x ∈ (idsOf db kw).erase kid :=
        Finset.mem_erase.2 ⟨hxne, (mem_idsOf _ _ _).2 ⟨s, hs, hkw, hid⟩⟩
      by_cases hknew : kw ∈ (k.getD row.keywords).map String.toLower
      · rw [if_pos hknew]
        exact Finset.mem_insert_of_mem hxmem
      · rw [if_neg hknew]
        exact hxmem
  · intro hx
    by_cases hknew : kw ∈ (k.getD row.keywords).map String.toLower
    · rw [if_pos hknew] at hx
      rcases Finset.mem_insert.1 hx with rfl | hx
      · refine ⟨u row, List.mem_map_of_mem _ hrow, hukw.2 hknew, ?_⟩
        rw [hu, applyRowUpdate_id, hrowid]
      · have hxne := (Finset.mem_erase.1 hx).1
        rcases (mem_idsOf _ _ _).1 (Finset.mem_erase.1 hx).2 with ⟨s, hs, hkw, hid⟩
        have hsid : s.id ≠ kid := by rw [hid]; exact hxne
        refine ⟨u s, List.mem_map_of_mem _ hs, ?_, ?_⟩
        · rw [hu, applyRowUpdate_of_ne _ _ _ _ _ _ _ hsid]
          exact hkw
        · rw [hu, applyRowUpdate_id]
          exact hid
    · rw [if_neg hknew] at hx
      have hxne := (Finset.mem_erase.1 hx).1
      rcases (mem_idsOf _ _ _).1 (Finset.mem_erase.1 hx).2 with ⟨s, hs, hkw, hid⟩
      have hsid : s.id ≠ kid := by rw [hid]; exact hxne
      refine ⟨u s, List.mem_map_of_mem _ hs, ?_, ?_⟩
      · rw [hu, applyRowUpdate_of_ne _ _ _ _ _ _ _ hsid]
        exact hkw
      · rw [hu, applyRowUpdate_id]
        exact hid

theorem engineInv_updateKnowledge (embed : String → List ℚ) (st : EngineState)
    (kid : ℤ) (c : Option String) (k : Option (List String))
    (cat n : Option String) (h : engineInv st) :
    engineInv (updateKnowledge embed st kid c k cat n).2 := by
  obtain ⟨hnd, hlt, hidx⟩ := h
  rw [updateKnowledge]
  by_cases hall : (c.isNone && k.isNone && cat.isNone && n.isNone) = true
  · rw [if_pos hall]
    exact ⟨hnd, hlt, hidx⟩
  · rw [if_neg hall]
    cases hfind : st.db.find? (fun r => r.id == kid) with
    | none => exact ⟨hnd, hlt, hidx⟩
    | some row =>
      have hrowmem : row ∈ st.db := List.mem_of_find?_eq_some hfind
      have hrowid : row.id = kid := by
        have hp := List.find?_some hfind
        simpa using hp
      refine ⟨?_, ?_, ?_⟩
      · rw [List.map_map]
        have : ((fun r => r.id) ∘ applyRowUpdate embed kid c k cat n)
            = fun (r : Knowledge) => r.id := by
          funext r
          simp [Function.comp, applyRowUpdate_id]
        rw [this]
        exact hnd
      · intro r hr
        rcases List.mem_map.1 hr with ⟨s, hs, rfl⟩
        rw [applyRowUpdate_id]
        exact hlt s hs
      · intro kw
        rw [idxGet_indexInsertKws, idxGet_indexDeleteKws, hidx kw,
          idsOf_map_update embed kid c k cat n st.db hnd row hrowmem hrowid kw]
        by_cases hkold : kw ∈ row.keywords.map String.toLower
        · rw [if_pos hkold]
        · rw [if_neg hkold,
            Finset.erase_eq_of_not_mem
              (kid_not_mem_idsOf st.db kw kid hnd row hrowmem hrowid hkold)]

theorem engineInv_applyKnowledgeOp (embed : String → List ℚ) (st : EngineState)
    (op : KnowledgeOp) (h : engineInv st) :
    engineInv (applyKnowledgeOp embed st op) := by
  cases op with
  | add c kws cat n => exact engineInv_addKnowledge embed st c kws cat n h
  | update kid c kws cat n => exact engineInv_updateKnowledge embed st kid c kws cat n h
  | del kid => exact engineInv_deleteKnowledge st kid h

theorem engineInv_runKnowledgeOps (embed : String → List ℚ) (st : EngineState)
    (ops : List KnowledgeOp) (h : engineInv st) :
    engineInv (runKnowledgeOps embed st ops) := by
  induction ops generalizing st with
  | nil => exact h
  | cons op rest ih =>
    simp only [runKnowledgeOps, List.foldl_cons] at ih ⊢
    exact ih _ (engineInv_applyKnowledgeOp embed st op h)

/-- C2: starting from a freshly built index over a well-formed store
(distinct ids below the serial counter), after any sequence of
add/update/delete knowledge operations the in-memory keyword index maps
every case-folded keyword to exactly the set of ids a full rebuild from
the resulting persisted record set produces. -/
theorem keyword_index_matches_rebuild (embed : String → List ℚ)
    (ops : List KnowledgeOp) (st₀ : EngineState)
    (hidx : st₀.keywordIndex = buildKeywordIndex st₀.db)
    (hnd : (st₀.db.map (fun r => r.id)).Nodup)
    (hfresh : ∀ r ∈ st₀.db, r.id < st₀.nextId) :
    ∀ kw, idxGet (runKnowledgeOps embed st₀ ops).keywordIndex kw
      = idxGet (buildKeywordIndex (runKnowledgeOps embed st₀ ops).db) kw := by
  have h0 : engineInv st₀ := by
    refine ⟨hnd, hfresh, ?_⟩
    intro kw
    rw [hidx, idxGet_buildKeywordIndex]
  have h1 := engineInv_runKnowledgeOps embed st₀ ops h0
  intro kw
  rw [idxGet_buildKeywordIndex]
  exact h1.2.2 kw

def embedEx : String → List ℚ := fun _ => [1, 0]

def engineSt0 : EngineState :=
  { db := [], keywordIndex := [], indexLoaded := true, nextId := 1 }

def knowledgeOpsEx : List KnowledgeOp :=
  [KnowledgeOp.add "Komari likes apples" ["apple", "Fruit"] "general" none,
   KnowledgeOp.add "Komari fears dogs" ["dog"] "general" none,
   KnowledgeOp.update 1 none (some ["apple", "pie"]) none none,
   KnowledgeOp.del 2]

/-- Witness for C2 on a concrete operation sequence. -/
theorem keyword_index_matches_rebuild_witness :
    (engineSt0.keywordIndex = buildKeywordIndex engineSt0.db
      ∧ (engineSt0.db.map (fun r => r.id)).Nodup
      ∧ (∀ r ∈ engineSt0.db, r.id < engineSt0.nextId))
    ∧ idxGet (runKnowledgeOps embedEx engineSt0 knowledgeOpsEx).keywordIndex "apple"
      = idxGet (buildKeywordIndex (runKnowledgeOps embedEx engineSt0 knowledgeOpsEx).db)
          "apple" :=
  ⟨⟨rfl, by decide, by decide⟩,
   keyword_index_matches_rebuild embedEx knowledgeOpsEx engineSt0 rfl
     (by decide) (by decide) "apple"⟩

/-- C9: `delete_knowledge` on an id not present in the store returns
`False` and leaves the persisted record set, the keyword index and the
whole engine state unchanged. -/
theorem delete_knowledge_missing_id (st : EngineState) (kid : ℤ)
    (h : ∀ r ∈ st.db, r.id ≠ kid) :
    deleteKnowledge st kid = (false, st) := by
  have hnone : st.db.find? (fun r => r.id == kid) = none :=
    List.find?_eq_none.2 (fun r hr => by simp [h r hr])
  rw [deleteKnowledge, hnone]

/-- Witness for C9 at a concrete store. -/
theorem delete_knowledge_missing_id_witness :
    (∀ r ∈ (runKnowledgeOps embedEx engineSt0 knowledgeOpsEx).db, r.id ≠ 77)
    ∧ deleteKnowledge (runKnowledgeOps embedEx engineSt0 knowledgeOpsEx) 77
      = (false, runKnowledgeOps embedEx engineSt0 knowledgeOpsEx) :=
  ⟨by decide,
   delete_knowledge_missing_id (runKnowledgeOps embedEx engineSt0 knowledgeOpsEx) 77
     (by decide)⟩

/-! ### Hybrid retrieval (`MemoryEngine.search`, engine.py) -/

structure SearchResult where
  id : ℤ
  category : String
  content : String
  similarity : ℚ
  source : String
deriving Repr, DecidableEq

def hasPrefixL : List Char → List Char → Bool
  | _, [] => true
  | [], _ :: _ => false
  | a :: as, b :: bs => a == b && hasPrefixL as bs

def hasSubL : List Char → List Char → Bool
  | [], sub => sub.isEmpty
  | a :: as, sub => hasPrefixL (a :: as) sub || hasSubL as sub

/-- Python substring containment `sub in hay`. -/
def strIn (sub hay : String) : Bool := hasSubL hay.data sub.data

/-- The `matched_ids` set of `_layer1_keyword_search`: union of the id
sets of every indexed keyword occurring as a substring of the lowercased
query. -/
def layer1Matched (st : EngineState) (query : String) : Finset ℤ :=
  st.keywordIndex.foldl
    (fun acc p => if strIn p.1 query.toLower then acc ∪ p.2 else acc) ∅

/-- `MemoryEngine._layer1_keyword_search`: empty result when the index is
not loaded or nothing matched; otherwise fetch the matching rows
(`WHERE id = ANY($1) LIMIT $2`, modelled in store order) with
similarity 1.0 and source `"keyword"`. -/
def layer1KeywordSearch (st : EngineState) (query : String) (limit : ℕ) :
    List SearchResult :=
  if !st.indexLoaded then []
  else if layer1Matched st query = ∅ then []
  else
    ((st.db.filter (fun r => decide (r.id ∈ layer1Matched st query))).take limit).map
      (fun r => { id := r.id, category := r.category, content := r.content,
                  similarity := 1, source := "keyword" })

/-- The id exclusion list of `_layer2_vector_search`: an empty set is
passed to SQL as `[-1]`. -/
def layer2Excluded (excludeIds : Finset ℤ) : Finset ℤ :=
  if excludeIds = ∅ then {-1} else excludeIds

/-- The rows fetched by `_layer2_vector_search`: rows with a non-NULL
embedding and id outside the exclusion list, ranked by cosine distance
(`ORDER BY embedding <=> $1` ascending) and cut to `LIMIT $3`. -/
def layer2Rows (embed : String → List ℚ) (dist : List ℚ → List ℚ → ℚ)
    (st : EngineState) (query : String) (limit : ℕ) (excludeIds : Finset ℤ) :
    List Knowledge :=
  (insertionSortB
    (fun a b =>
      decide (dist (a.embedding.getD []) (embed query)
        ≤ dist (b.embedding.getD []) (embed query)))
    (st.db.filter
      (fun r => r.embedding.isSome && decide (r.id ∉ layer2Excluded excludeIds)))).take
    limit

/-- `MemoryEngine._layer2_vector_search`: keep the fetched rows at or
above the similarity threshold, with `similarity = 1 - distance` and
source `"vector"`. -/
def layer2VectorSearch (embed : String → List ℚ) (dist : List ℚ → List ℚ → ℚ)
    (threshold : ℚ) (st : EngineState) (query : String) (limit : ℕ)
    (excludeIds : Finset ℤ) : List SearchResult :=
  ((layer2Rows embed dist st query limit excludeIds).filter
    (fun r => decide (threshold ≤ 1 - dist (r.embedding.getD []) (embed query)))).map
    (fun r => { id := r.id, category := r.category, content := r.content,
                similarity := 1 - dist (r.embedding.getD []) (embed query),
                source := "vector" })

/-- One step of the dedup loop in `MemoryEngine.search`:
`if hit.id not in seen_ids: results.append(hit); seen_ids.add(hit.id)`. -/
def dedupStep (acc : List SearchResult × Finset ℤ) (hit : SearchResult) :
    List SearchResult × Finset ℤ :=
  if hit.id ∈ acc.2 then acc else (acc.1 ++ [hit], insert hit.id acc.2)

/-- The `results`/`seen_ids` pair after the Layer-1 dedup loop. -/
def dedupKeywordHits (hits : List SearchResult) : List SearchResult × Finset ℤ :=
  hits.foldl dedupStep ([], ∅)

/-- `MemoryEngine.search`: empty/whitespace query short-circuits; Layer 1
hits are deduplicated into `results`/`seen_ids`; when fewer than `limit`
results were found Layer 2 fills the remaining slots excluding
`seen_ids`. -/
def searchKnowledge (embed : String → List ℚ) (dist : List ℚ → List ℚ → ℚ)
    (threshold : ℚ) (st : EngineState) (query : String) (limit : ℕ) :
    List SearchResult :=
  if query.trim = "" then []
  else if (dedupKeywordHits (layer1KeywordSearch st query limit)).1.length < limit then
    (dedupKeywordHits (layer1KeywordSearch st query limit)).1
      ++ layer2VectorSearch embed dist threshold st query
          (limit - (dedupKeywordHits (layer1KeywordSearch st query limit)).1.length)
          (dedupKeywordHits (layer1KeywordSearch st query limit)).2
  else (dedupKeywordHits (layer1KeywordSearch st query limit)).1

theorem layer1_source_sim (st : EngineState) (query : String) (limit : ℕ) :
    ∀ x ∈ layer1KeywordSearch st query limit,
      x.source = "keyword" ∧ x.similarity = 1 := by
  intro x hx
  rw [layer1KeywordSearch] at hx
  split at hx
  · simp at hx
  · split at hx
    · simp at hx
    · rcases List.mem_map.1 hx with ⟨r, _, rfl⟩
      exact ⟨rfl, rfl⟩

theorem layer1_ids_nodup (st : EngineState) (query : String) (limit : ℕ)
    (hnd : (st.db.map (fun r => r.id)).Nodup) :
    ((layer1KeywordSearch st query limit).map (fun r => r.id)).Nodup := by
  rw [layer1KeywordSearch]
  split
  · simp
  · split
    · simp
    · rw [List.map_map]
      have hsub : ((st.db.filter
          (fun r => decide (r.id ∈ layer1Matched st query))).take limit).Sublist
          st.db :=
        ((List.take_sublist _ _).trans (List.filter_sublist _))
      have hn := hnd.sublist (hsub.map (fun r => r.id))
      simpa [Function.comp] using hn

theorem layer2Rows_mem (embed : String → List ℚ) (dist : List ℚ → List ℚ → ℚ)
    (st : EngineState) (query : String) (limit : ℕ) (excludeIds : Finset ℤ) :
    ∀ r ∈ layer2Rows embed dist st query limit excludeIds,
      r ∈ st.db ∧ r.id ∉ layer2Excluded excludeIds := by
  intro r hr
  rw [layer2Rows] at hr
  have hr2 := List.mem_of_mem_take hr
  have hr3 := (insertionSortB_perm _ _).mem_iff.1 hr2
  have hr4 := List.mem_filter.1 hr3
  refine ⟨hr4.1, ?_⟩
  have := hr4.2
  simp only [Bool.and_eq_true, decide_eq_true_eq] at this
  exact this.2

theorem layer2Rows_ids_nodup (embed : String → List ℚ)
    (dist : List ℚ → List ℚ → ℚ) (st : EngineState) (query : String)
    (limit : ℕ) (excludeIds : Finset ℤ)
    (hnd : (st.db.map (fun r => r.id)).Nodup) :
    ((layer2Rows embed dist st query limit excludeIds).map (fun r => r.id)).Nodup := by
  rw [layer2Rows]
  have hfil : ((st.db.filter
      (fun r => r.embedding.isSome
        && decide (r.id ∉ layer2Excluded excludeIds))).map (fun r => r.id)).Nodup :=
    hnd.sublist ((List.filter_sublist _).map _)
  have hperm := (insertionSortB_perm
    (fun (a b : Knowledge) =>
      decide (dist (a.embedding.getD []) (embed query)
        ≤ dist (b.embedding.getD []) (embed query)))
    (st.db.filter
      (fun r => r.embedding.isSome && decide (r.id ∉ layer2Excluded excludeIds))))
  have hsorted : ((insertionSortB _ _).map (fun (r : Knowledge) => r.id)).Nodup :=
    (hperm.map (fun r => r.id)).symm.nodup hfil
  exact hsorted.sublist ((List.take_sublist _ _).map _)

theorem layer2Rows_pairwise (embed : String → List ℚ)
    (dist : List ℚ → List ℚ → ℚ) (st : EngineState) (query : String)
    (limit : ℕ) (excludeIds : Finset ℤ) :
    (layer2Rows embed dist st query limit excludeIds).Pairwise
      (fun a b => dist (a.embedding.getD []) (embed query)
        ≤ dist (b.embedding.getD []) (embed query)) := by
  rw [layer2Rows]
  have hsorted := insertionSortB_pairwise
    (fun (a b : Knowledge) =>
      decide (dist (a.embedding.getD []) (embed query)
        ≤ dist (b.embedding.getD []) (embed query)))
    (fun a b => by
      rcases le_total (dist (a.embedding.getD []) (embed query))
          (dist (b.embedding.getD []) (embed query)) with h | h
      · exact Or.inl (by simpa using h)
      · exact Or.inr (by simpa using h))
    (fun a b c hab hbc => by
      simp only [decide_eq_true_eq] at hab hbc ⊢
      exact le_trans hab hbc)
    (st.db.filter
      (fun r => r.embedding.isSome && decide (r.id ∉ layer2Excluded excludeIds)))
  have hp := List.Pairwise.sublist (List.take_sublist limit _) hsorted
  exact hp.imp (fun h => by simpa using h)

theorem layer2_mem_spec (embed : String → List ℚ) (dist : List ℚ → List ℚ → ℚ)
    (threshold : ℚ) (st : EngineState) (query : String) (limit : ℕ)
    (excludeIds : Finset ℤ) :
    ∀ b ∈ layer2VectorSearch embed dist threshold st query limit excludeIds,
      b.source = "vector" ∧ threshold ≤ b.similarity
      ∧ b.id ∉ layer2Excluded excludeIds := by
  intro b hb
  rw [layer2VectorSearch] at hb
  rcases List.mem_map.1 hb with ⟨r, hr, rfl⟩
  have hr1 := List.mem_filter.1 hr
  refine ⟨rfl, by simpa using hr1.2, ?_⟩
  exact (layer2Rows_mem embed dist st query limit excludeIds r hr1.1).2

theorem layer2_ids_nodup (embed : String → List ℚ) (dist : List ℚ → List ℚ → ℚ)
    (threshold : ℚ) (st : EngineState) (query : String) (limit : ℕ)
    (excludeIds : Finset ℤ) (hnd : (st.db.map (fun r => r.id)).Nodup) :
    ((layer2VectorSearch embed dist threshold st query limit excludeIds).map
      (fun r => r.id)).Nodup := by
  rw [layer2VectorSearch, List.map_map]
  have hrows := layer2Rows_ids_nodup embed dist st query limit excludeIds hnd
  have hfil : (((layer2Rows embed dist st query limit excludeIds).filter
      (fun r => decide (threshold ≤ 1 - dist (r.embedding.getD []) (embed query)))).map
      (fun r => r.id)).Nodup :=
    hrows.sublist ((List.filter_sublist _).map _)
  simpa [Function.comp] using hfil

theorem layer2_pairwise_similarity (embed : String → List ℚ)
    (dist : List ℚ → List ℚ → ℚ) (threshold : ℚ) (st : EngineState)
    (query : String) (limit : ℕ) (excludeIds : Finset ℤ) :
    (layer2VectorSearch embed dist threshold st query limit excludeIds).Pairwise
      (fun a b => b.similarity ≤ a.similarity) := by
  rw [layer2VectorSearch]
  rw [List.pairwise_map]
  have hrows := layer2Rows_pairwise embed dist st query limit excludeIds
  have hsub : ((layer2Rows embed dist st query limit excludeIds).filter
      (fun r => decide (threshold ≤ 1 - dist (r.embedding.getD []) (embed query)))).Sublist
      (layer2Rows embed dist st query limit excludeIds) :=
    List.filter_sublist _
  have hfil := List.Pairwise.sublist hsub hrows
  exact hfil.imp (fun h => sub_le_sub_left h 1)

theorem dedup_foldl_spec (hits : List SearchResult)
    (acc : List SearchResult × Finset ℤ)
    (h1 : (acc.1.map (fun r => r.id)).Nodup)
    (h2 : ∀ i, i ∈ acc.2 ↔ ∃ b ∈ acc.1, b.id = i) :
    ((hits.foldl dedupStep acc).1.map (fun r => r.id)).Nodup
    ∧ (∀ i, i ∈ (hits.foldl dedupStep acc).2
        ↔ ∃ b ∈ (hits.foldl dedupStep acc).1, b.id = i)
    ∧ (∀ x ∈ (hits.foldl dedupStep acc).1, x ∈ acc.1 ∨ x ∈ hits)
    ∧ (∀ g ∈ hits, g.id ∈ (hits.foldl dedupStep acc).2)
    ∧ (∀ i ∈ acc.2, i ∈ (hits.foldl dedupStep acc).2) := by
  induction hits generalizing acc with
  | nil =>
    refine ⟨h1, h2, fun x hx => Or.inl hx, by simp, fun i hi => hi⟩
  | cons h t ih =>
    simp only [List.foldl_cons]
    by_cases hmem : h.id ∈ acc.2
    · have hstep : dedupStep acc h = acc := by rw [dedupStep, if_pos hmem]
      rw [hstep]
      obtain ⟨c1, c2, c3, c4, c5⟩ := ih acc h1 h2
      refine ⟨c1, c2,
        fun x hx => (c3 x hx).imp id (fun hh => List.mem_cons_of_mem _ hh), ?_, c5⟩
      intro g hg
      rcases List.mem_cons.1 hg with rfl | hg
      · exact c5 _ hmem
      · exact c4 g hg
    · have hstep : dedupStep acc h = (acc.1 ++ [h], insert h.id acc.2) := by
        rw [dedupStep, if_neg hmem]
      rw [hstep]
      have h1' : (((acc.1 ++ [h], insert h.id acc.2) :
          List SearchResult × Finset ℤ).1.map (fun r => r.id)).Nodup := by
        simp only [List.map_append]
        rw [List.nodup_append]
        refine ⟨h1, by simp, ?_⟩
        intro i hi
        rcases List.mem_map.1 hi with ⟨b, hb, rfl⟩
        simp only [List.map_cons, List.map_nil, List.mem_singleton]
        intro heq
        exact hmem ((h2 h.id).2 ⟨b, hb, heq⟩)
      have h2' : ∀ i, i ∈ ((acc.1 ++ [h], insert h.id acc.2) :
          List SearchResult × Finset ℤ).2
          ↔ ∃ b ∈ (acc.1 ++ [h]), b.id = i := by
        intro i
        simp only [Finset.mem_insert]
        constructor
        · rintro (rfl | hi)
          · exact ⟨h, by simp, rfl⟩
          · rcases (h2 i).1 hi with ⟨b, hb, hbid⟩
            exact ⟨b, List.mem_append_left _ hb, hbid⟩
        · rintro ⟨b, hb, hbid⟩
          rcases List.mem_append.1 hb with hb | hb
          · exact Or.inr ((h2 i).2 ⟨b, hb, hbid⟩)
          · rcases List.mem_singleton.1 hb with rfl
            exact Or.inl hbid.symm
      obtain ⟨c1, c2, c3, c4, c5⟩ := ih _ h1' h2'
      refine ⟨c1, c2, ?_, ?_, ?_⟩
      · intro x hx
        rcases c3 x hx with hx1 | hx1
        · rcases List.mem_append.1 hx1 with hh | hh
          · exact Or.inl hh
          · rcases List.mem_singleton.1 hh with rfl
            exact Or.inr (by simp)
        · exact Or.inr (List.mem_cons_of_mem _ hx1)
      · intro g hg
        rcases List.mem_cons.1 hg with rfl | hg
        · exact c5 _ (Finset.mem_insert_self _ _)
        · exact c4 g hg
      · intro i hi
        exact c5 _ (Finset.mem_insert_of_mem hi)

theorem dedupKeywordHits_spec (hits : List SearchResult) :
    ((dedupKeywordHits hits).1.map (fun r => r.id)).Nodup
    ∧ (∀ i, i ∈ (dedupKeywordHits hits).2
        ↔ ∃ b ∈ (dedupKeywordHits hits).1, b.id = i)
    ∧ (∀ x ∈ (dedupKeywordHits hits).1, x ∈ hits)
    ∧ (∀ g ∈ hits, g.id ∈ (dedupKeywordHits hits).2) := by
  obtain ⟨c1, c2, c3, c4, c5⟩ := dedup_foldl_spec hits ([], ∅) (by simp) (by simp)
  exact ⟨c1, c2, fun x hx => (c3 x hx).resolve_left (by simp), c4⟩

/-- C3: `MemoryEngine.search` never returns two results with the same id;
every id produced by the Layer-1 keyword lookup is retained in the result
with source `"keyword"` (never displaced), and no Layer-2 vector hit
carries an id that Layer 1 returned (never duplicated). -/
theorem search_no_duplicate_ids (embed : String → List ℚ)
    (dist : List ℚ → List ℚ → ℚ) (threshold : ℚ) (st : EngineState)
    (query : String) (limit : ℕ)
    (hnd : (st.db.map (fun r => r.id)).Nodup) :
    ((searchKnowledge embed dist threshold st query limit).map (fun r => r.id)).Nodup
    ∧ (query.trim ≠ "" →
        ∀ a ∈ layer1KeywordSearch st query limit,
          ∃ b ∈ searchKnowledge embed dist threshold st query limit,
            b.id = a.id ∧ b.source = "keyword")
    ∧ (∀ b ∈ searchKnowledge embed dist threshold st query limit,
        b.source = "vector" →
        ∀ a ∈ layer1KeywordSearch st query limit, b.id ≠ a.id) := by
  obtain ⟨d1, d2, d3, d4⟩ := dedupKeywordHits_spec (layer1KeywordSearch st query limit)
  by_cases hq : query.trim = ""
  · rw [searchKnowledge, if_pos hq]
    exact ⟨by simp, fun hq' => absurd hq hq', by simp⟩
  · rw [searchKnowledge, if_neg hq]
    set p := dedupKeywordHits (layer1KeywordSearch st query limit) with hp
    have hp1src : ∀ x ∈ p.1, x.source = "keyword" :=
      fun x hx => (layer1_source_sim st query limit x (d3 x hx)).1
    by_cases hlen : p.1.length < limit
    · rw [if_pos hlen]
      have hvspec := layer2_mem_spec embed dist threshold st query
        (limit - p.1.length) p.2
      have hvec_not_in_p2 :
          ∀ b ∈ layer2VectorSearch embed dist threshold st query
              (limit - p.1.length) p.2, p.2 ≠ ∅ → b.id ∉ p.2 := by
        intro b hb hne
        have h3 := (hvspec b hb).2.2
        rw [layer2Excluded, if_neg hne] at h3
        exact h3
      refine ⟨?_, ?_, ?_⟩
      · rw [List.map_append, List.nodup_append]
        refine ⟨d1,
          layer2_ids_nodup embed dist threshold st query (limit - p.1.length) p.2 hnd,
          ?_⟩
        intro i hi
        rcases List.mem_map.1 hi with ⟨b, hb, rfl⟩
        intro hj
        rcases List.mem_map.1 hj with ⟨c, hc, hcid⟩
        have hbp2 : b.id ∈ p.2 := (d2 b.id).2 ⟨b, hb, rfl⟩
        have hne : p.2 ≠ ∅ := by
          intro he
          rw [he] at hbp2
          exact absurd hbp2 (Finset.not_mem_empty _)
        have hnc := hvec_not_in_p2 c hc hne
        rw [hcid] at hnc
        exact hnc hbp2
      · intro _ a ha
        rcases (d2 a.id).1 (d4 a ha) with ⟨b, hb, hbid⟩
        exact ⟨b, List.mem_append_left _ hb, hbid, hp1src b hb⟩
      · intro b hb hbsrc a ha
        rcases List.mem_append.1 hb with hb1 | hb1
        · have hk := hp1src b hb1
          rw [hk] at hbsrc
          exact absurd hbsrc (by decide)
        · have haid : a.id ∈ p.2 := d4 a ha
          have hne : p.2 ≠ ∅ := by
            intro he
            rw [he] at haid
            exact absurd haid (Finset.not_mem_empty _)
          have hnb := hvec_not_in_p2 b hb1 hne
          intro heq
          rw [heq] at hnb
          exact hnb haid
    · rw [if_neg hlen]
      refine ⟨d1, ?_, ?_⟩
      · intro _ a ha
        rcases (d2 a.id).1 (d4 a ha) with ⟨b, hb, hbid⟩
        exact ⟨b, hb, hbid, hp1src b hb⟩
      · intro b hb hbsrc a ha
        have hk := hp1src b hb
        rw [hk] at hbsrc
        exact absurd hbsrc (by decide)

def distEx : List ℚ → List ℚ → ℚ := fun _ _ => 0

/-- Witness for C3 at a concrete engine state and query. -/
theorem search_no_duplicate_ids_witness :
    ((runKnowledgeOps embedEx engineSt0 knowledgeOpsEx).db.map
      (fun r => r.id)).Nodup
    ∧ ((searchKnowledge embedEx distEx (1 / 2)
        (runKnowledgeOps embedEx engineSt0 knowledgeOpsEx)
        "I like apple pie" 5).map (fun r => r.id)).Nodup :=
  ⟨by decide,
   (search_no_duplicate_ids embedEx distEx (1 / 2)
     (runKnowledgeOps embedEx engineSt0 knowledgeOpsEx) "I like apple pie" 5
     (by decide)).1⟩

/-- C4: in `MemoryEngine.search` results every keyword-sourced entry
precedes every vector-sourced entry, keyword entries have similarity
exactly 1.0, and vector entries are at or above the similarity threshold
and sorted by non-increasing similarity. -/
theorem search_ordering (embed : String → List ℚ)
    (dist : List ℚ → List ℚ → ℚ) (threshold : ℚ) (st : EngineState)
    (query : String) (limit : ℕ) :
    (searchKnowledge embed dist threshold st query limit).Pairwise
      (fun a b => a.source = "vector" → b.source = "vector")
    ∧ (∀ a ∈ searchKnowledge embed dist threshold st query limit,
        a.source = "keyword" → a.similarity = 1)
    ∧ (∀ a ∈ searchKnowledge embed dist threshold st query limit,
        a.source = "vector" → threshold ≤ a.similarity)
    ∧ (searchKnowledge embed dist threshold st query limit).Pairwise
      (fun a b => a.source = "vector" → b.source = "vector" →
        b.similarity ≤ a.similarity) := by
  obtain ⟨d1, d2, d3, d4⟩ := dedupKeywordHits_spec (layer1KeywordSearch st query limit)
  by_cases hq : query.trim = ""
  · rw [searchKnowledge, if_pos hq]
    exact ⟨by simp, by simp, by simp, by simp⟩
  · rw [searchKnowledge, if_neg hq]
    set p := dedupKeywordHits (layer1KeywordSearch st query limit) with hp
    have hp1src : ∀ x ∈ p.1, x.source = "keyword" ∧ x.similarity = 1 :=
      fun x hx => layer1_source_sim st query limit x (d3 x hx)
    have hnotvec : ∀ x ∈ p.1, ¬ x.source = "vector" := by
      intro x hx hv
      have hk := (hp1src x hx).1
      rw [hk] at hv
      exact absurd hv (by decide)
    by_cases hlen : p.1.length < limit
    · rw [if_pos hlen]
      have hvspec := layer2_mem_spec embed dist threshold st query
        (limit - p.1.length) p.2
      have hvpair := layer2_pairwise_similarity embed dist threshold st query
        (limit - p.1.length) p.2
      refine ⟨?_, ?_, ?_, ?_⟩
      · rw [List.pairwise_append]
        refine ⟨?_, ?_, ?_⟩
        · exact List.pairwise_of_forall_mem_list
            (fun a ha b _ hav => absurd hav (hnotvec a ha))
        · exact List.pairwise_of_forall_mem_list
            (fun a _ b hb _ => (hvspec b hb).1)
        · intro a _ b hb _
          exact (hvspec b hb).1
      · intro a ha hak
        rcases List.mem_append.1 ha with h1 | h1
        · exact (hp1src a h1).2
        · have hv := (hvspec a h1).1
          rw [hak] at hv
          exact absurd hv (by decide)
      · intro a ha hav
        rcases List.mem_append.1 ha with h1 | h1
        · exact absurd hav (hnotvec a h1)
        · exact (hvspec a h1).2.1
      · rw [List.pairwise_append]
        refine ⟨?_, ?_, ?_⟩
        · exact List.pairwise_of_forall_mem_list
            (fun a ha b _ hav => absurd hav (hnotvec a ha))
        · exact hvpair.imp (fun h _ _ => h)
        · intro a ha b _ hav
          exact absurd hav (hnotvec a ha)
    · rw [if_neg hlen]
      refine ⟨?_, ?_, ?_, ?_⟩
      · exact List.pairwise_of_forall_mem_list
          (fun a ha b _ hav => absurd hav (hnotvec a ha))
      · intro a ha hak
        exact (hp1src a ha).2
      · intro a ha hav
        exact absurd hav (hnotvec a ha)
      · exact List.pairwise_of_forall_mem_list
          (fun a ha b _ hav => absurd hav (hnotvec a ha))

/-! ### Conversation memory store
(`ConversationRepository`, repositories/conversation_repository.py and the
superseded `MemoryService` of services/memory_service.py) -/

/-- A row of the `komari_memory_conversations` table (the columns the
claims touch). -/
structure ConvMemory where
  id : ℤ
  group_id : String
  summary : String
  embedding : List ℚ
  participants : List String
  importance_initial : ℤ
  importance_current : ℤ
  is_fuzzy : Bool
  last_accessed : Option ℚ
deriving Repr, DecidableEq

structure ConvSearchRow where
  id : ℤ
  summary : String
  participants : List String
  similarity : ℚ
deriving Repr, DecidableEq

/-- The `ORDER BY` key of `search_by_similarity`: the cosine distance,
divided by 1.2 (= 6/5) when the requesting user is among the row's
participants (`CASE WHEN $4 = ANY(participants) THEN ... / 1.2`). -/
def convRankKey (dist : List ℚ → List ℚ → ℚ) (qEmb : List ℚ)
    (userId : Option String) (m : ConvMemory) : ℚ :=
  match userId with
  | some u =>
      if u ∈ m.participants then dist m.embedding qEmb / (6 / 5)
      else dist m.embedding qEmb
  | none => dist m.embedding qEmb

/-- The rows both conversation searches return: rows of the group, ranked
by the key, cut to `LIMIT`, with `similarity = 1 - distance`. -/
def convSearchRows (dist : List ℚ → List ℚ → ℚ) (db : List ConvMemory)
    (qEmb : List ℚ) (groupId : String) (userId : Option String) (limit : ℕ) :
    List ConvSearchRow :=
  ((insertionSortB
      (fun a b => decide (convRankKey dist qEmb userId a
        ≤ convRankKey dist qEmb userId b))
      (db.filter (fun m => m.group_id == groupId))).take limit).map
    (fun m => ⟨m.id, m.summary, m.participants, 1 - dist m.embedding qEmb⟩)

/-- The post-retrieval `UPDATE ... SET last_accessed = NOW(),
importance_current = importance_initial WHERE id = ANY($1)` of
`search_by_similarity`. -/
def resetAccessed (now : ℚ) (ids : List ℤ) (db : List ConvMemory) :
    List ConvMemory :=
  db.map (fun m =>
    if ids.contains m.id then
      { m with last_accessed := some now,
               importance_current := m.importance_initial }
    else m)

/-- `ConversationRepository.search_by_similarity`: rank, fetch, then (when
any results were found) reset importance and access time of the returned
rows.  Returns the result rows and the table afterwards. -/
def searchBySimilarity (dist : List ℚ → List ℚ → ℚ) (db : List ConvMemory)
    (qEmb : List ℚ) (groupId : String) (userId : Option String) (limit : ℕ)
    (now : ℚ) : List ConvSearchRow × List ConvMemory :=
  if (convSearchRows dist db qEmb groupId userId limit).isEmpty then
    (convSearchRows dist db qEmb groupId userId limit, db)
  else
    (convSearchRows dist db qEmb groupId userId limit,
     resetAccessed now
       ((convSearchRows dist db qEmb groupId userId limit).map (fun r => r.id)) db)

/-- `MemoryService.search_conversations` (services/memory_service.py): the
same ranked fetch without user weighting, and WITHOUT any importance or
access-time update — the table is returned unchanged. -/
def searchConversations (embed : String → List ℚ)
    (dist : List ℚ → List ℚ → ℚ) (db : List ConvMemory) (query : String)
    (groupId : String) (limit : ℕ) : List ConvSearchRow × List ConvMemory :=
  (convSearchRows dist db (embed query) groupId none limit, db)

def convM1 : ConvMemory :=
  { id := 1, group_id := "g1", summary := "old chat", embedding := [0],
    participants := ["u1"], importance_initial := 5, importance_current := 0,
    is_fuzzy := false, last_accessed := none }

/-- C5: `MemoryService.search_conversations` returns a non-empty result
but leaves the table untouched: the returned record keeps
`importance_current = 0 ≠ importance_initial = 5` and `last_accessed`
unset, while `ConversationRepository.search_by_similarity` — the variant
the plugin wires in — resets both at the same input. -/
theorem search_conversations_no_access_reset :
    (searchConversations embedEx distEx [convM1] "hi" "g1" 5).1.map (fun r => r.id)
      = [1]
    ∧ (searchConversations embedEx distEx [convM1] "hi" "g1" 5).2 = [convM1]
    ∧ convM1.importance_current = 0
    ∧ convM1.importance_initial = 5
    ∧ convM1.last_accessed = none
    ∧ (searchBySimilarity distEx [convM1] (embedEx "hi") "g1" none 5 1000).2
      = [{ convM1 with importance_current := 5, last_accessed := some (1000 : ℚ) }] := by
  refine ⟨by decide, by decide, by decide, by decide, by decide, by decide⟩

/-! ### Forgetting pipeline (`ForgettingService`, services/forgetting_service.py) -/

/-- One row's decay step:
`SET importance_current = GREATEST(0, importance_current - 1)`. -/
def decayImportance (m : ConvMemory) : ConvMemory :=
  { m with importance_current := max 0 (m.importance_current - 1) }

/-- `ForgettingService._daily_decay`: the decay UPDATE over every row. -/
def dailyDecay (db : List ConvMemory) : List ConvMemory :=
  db.map decayImportance

/-- `ForgettingService._delete_low_value_memories`:
`DELETE ... WHERE importance_current = 0 AND importance_initial <= $1`. -/
def deleteLowValueMemories (threshold : ℤ) (db : List ConvMemory) :
    List ConvMemory :=
  db.filter (fun m =>
    decide (¬(m.importance_current = 0 ∧ m.importance_initial ≤ threshold)))

/-- `ForgettingService._fuzzify_conversation`'s UPDATE on one row:
`SET summary = $1, is_fuzzy = TRUE, importance_current = importance_initial`.
The external summarizer is the abstract `fuzz`. -/
def fuzzifyRow (fuzz : String → String) (m : ConvMemory) : ConvMemory :=
  { m with summary := fuzz m.summary, is_fuzzy := true,
           importance_current := m.importance_initial }

/-- `ForgettingService._fuzzify_and_cleanup_high_value_memories`: first
DELETE the zero-importance high-value rows already fuzzified, then fuzzify
each remaining zero-importance high-value non-fuzzy row. -/
def fuzzifyAndCleanupHighValue (fuzz : String → String) (threshold : ℤ)
    (db : List ConvMemory) : List ConvMemory :=
  (db.filter (fun m =>
      decide (¬(m.importance_current = 0 ∧ threshold < m.importance_initial
        ∧ m.is_fuzzy = true)))).map
    (fun m =>
      if m.importance_current = 0 ∧ threshold < m.importance_initial
          ∧ m.is_fuzzy = false
      then fuzzifyRow fuzz m else m)

/-- `ForgettingService.decay_and_cleanup`: skip when disabled, otherwise
decay, delete low-value, then handle high-value rows — in that order. -/
def decayAndCleanup (enabled : Bool) (fuzz : String → String) (threshold : ℤ)
    (db : List ConvMemory) : List ConvMemory :=
  if !enabled then db
  else fuzzifyAndCleanupHighValue fuzz threshold
    (deleteLowValueMemories threshold (dailyDecay db))

/-- C6: in the high-value phase a zero-importance record above the
threshold is fuzzified exactly when not yet fuzzy (summary compressed,
`is_fuzzy` set, importance reset to its initial value, record kept) and
deleted when already fuzzy; across a whole forgetting cycle `is_fuzzy`
never reverts to false, so it transitions false→true at most once. -/
theorem forgetting_fuzzify_once (fuzz : String → String) (threshold : ℤ)
    (db : List ConvMemory) (hnd : (db.map (fun m => m.id)).Nodup) :
    (∀ m ∈ db, m.importance_current = 0 → threshold < m.importance_initial →
      m.is_fuzzy = false →
      ∃ m' ∈ fuzzifyAndCleanupHighValue fuzz threshold db,
        m'.id = m.id ∧ m'.is_fuzzy = true ∧ m'.summary = fuzz m.summary
        ∧ m'.importance_current = m.importance_initial)
    ∧ (∀ m ∈ db, m.importance_current = 0 → threshold < m.importance_initial →
      m.is_fuzzy = true →
      ∀ m' ∈ fuzzifyAndCleanupHighValue fuzz threshold db, m'.id ≠ m.id)
    ∧ (∀ enabled, ∀ m' ∈ decayAndCleanup enabled fuzz threshold db,
      ∀ m ∈ db, m'.id = m.id → m.is_fuzzy = true → m'.is_fuzzy = true) := by
  refine ⟨?_, ?_, ?_⟩
  · intro m hm h0 hth hnf
    have hkeep : m ∈ db.filter (fun m =>
        decide (¬(m.importance_current = 0 ∧ threshold < m.importance_initial
          ∧ m.is_fuzzy = true))) := by
      rw [List.mem_filter]
      refine ⟨hm, ?_⟩
      simp only [decide_eq_true_eq]
      rintro ⟨_, _, hf⟩
      rw [hnf] at hf
      exact absurd hf (by decide)
    refine ⟨fuzzifyRow fuzz m, ?_, rfl, rfl, rfl, rfl⟩
    rw [fuzzifyAndCleanupHighValue]
    refine List.mem_map.2 ⟨m, hkeep, ?_⟩
    rw [if_pos ⟨h0, hth, hnf⟩]
  · intro m hm h0 hth hf m' hm' heq
    rw [fuzzifyAndCleanupHighValue] at hm'
    rcases List.mem_map.1 hm' with ⟨s, hs, rfl⟩
    have hsmem := List.mem_filter.1 hs
    have hsid : (if s.importance_current = 0 ∧ threshold < s.importance_initial
        ∧ s.is_fuzzy = false then fuzzifyRow fuzz s else s).id = s.id := by
      split <;> rfl
    rw [hsid] at heq
    have hseq : s = m := List.inj_on_of_nodup_map hnd hsmem.1 hm heq
    rw [hseq] at hsmem
    have := hsmem.2
    simp only [decide_eq_true_eq] at this
    exact this ⟨h0, hth, hf⟩
  · intro enabled m' hm' m hm heq hf
    rw [decayAndCleanup] at hm'
    by_cases he : enabled = true
    · rw [if_neg (by simp [he])] at hm'
      rw [fuzzifyAndCleanupHighValue] at hm'
      rcases List.mem_map.1 hm' with ⟨s, hs, rfl⟩
      have hs1 := (List.mem_filter.1 hs).1
      have hs2 := List.mem_filter.1 hs1
      rcases List.mem_map.1 hs2.1 with ⟨m₀, hm₀, rfl⟩
      have heq' : m₀.id = m.id := by
        have hid : (if (decayImportance m₀).importance_current = 0
              ∧ threshold < (decayImportance m₀).importance_initial
              ∧ (decayImportance m₀).is_fuzzy = false
            then fuzzifyRow fuzz (decayImportance m₀)
            else decayImportance m₀).id = m₀.id := by
          split <;> rfl
        rw [hid] at heq
        exact heq
      have hm₀eq : m₀ = m := List.inj_on_of_nodup_map hnd hm₀ hm heq'
      subst hm₀eq
      split
      · rfl
      · exact hf
    · have he' : enabled = false := by
        cases enabled
        · rfl
        · exact absurd rfl he
      rw [he'] at hm'
      simp only [Bool.not_false, if_pos] at hm'
      have : m' = m := List.inj_on_of_nodup_map hnd hm' hm heq
      rw [this]
      exact hf

def convM2 : ConvMemory :=
  { id := 2, group_id := "g1", summary := "detail", embedding := [0],
    participants := ["u1"], importance_initial := 5, importance_current := 0,
    is_fuzzy := false, last_accessed := none }

def convM3 : ConvMemory :=
  { id := 3, group_id := "g1", summary := "already fuzzy", embedding := [0],
    participants := ["u1"], importance_initial := 4, importance_current := 0,
    is_fuzzy := true, last_accessed := none }

def fuzzEx : String → String := fun _ => "one-sentence gist"

/-- Witness for C6 at a concrete store. -/
theorem forgetting_fuzzify_once_witness :
    (([convM2, convM3].map (fun m => m.id)).Nodup)
    ∧ (∃ m' ∈ fuzzifyAndCleanupHighValue fuzzEx 3 [convM2, convM3],
        m'.id = convM2.id ∧ m'.is_fuzzy = true
        ∧ m'.summary = fuzzEx convM2.summary
        ∧ m'.importance_current = convM2.importance_initial) :=
  ⟨by decide,
   (forgetting_fuzzify_once fuzzEx 3 [convM2, convM3] (by decide)).1 convM2
     (by decide) (by decide) (by decide) (by decide)⟩

theorem decayImportance_iterate_current (m : ConvMemory)
    (h0 : 0 ≤ m.importance_current) (k : ℕ) :
    (decayImportance^[k] m).importance_current
      = max 0 (m.importance_current - k) := by
  induction k with
  | zero =>
    simp only [Function.iterate_zero, id_eq, Nat.cast_zero]
    omega
  | succ k ih =>
    rw [Function.iterate_succ_apply']
    simp only [decayImportance, ih]
    push_cast
    omega

/-- C7: the decay UPDATE lowers a positive `importance_current` by exactly
1 and keeps 0 at 0; hence repeated decay cycles without intervening access
strictly decrease it until it reaches 0 and hold it at 0 thereafter. -/
theorem decay_monotone_until_zero (db : List ConvMemory) (m : ConvMemory)
    (k : ℕ) (hm : m ∈ db) (h0 : 0 ≤ m.importance_current) :
    decayImportance m ∈ dailyDecay db
    ∧ (0 < m.importance_current →
        (decayImportance m).importance_current = m.importance_current - 1)
    ∧ (m.importance_current = 0 → (decayImportance m).importance_current = 0)
    ∧ ((k : ℤ) < m.importance_current →
        (decayImportance^[k + 1] m).importance_current
          < (decayImportance^[k] m).importance_current)
    ∧ (m.importance_current ≤ (k : ℤ) →
        (decayImportance^[k] m).importance_current = 0) := by
  refine ⟨List.mem_map_of_mem _ hm, ?_, ?_, ?_, ?_⟩
  · intro h
    simp only [decayImportance]
    omega
  · intro h
    simp only [decayImportance]
    omega
  · intro h
    rw [decayImportance_iterate_current m h0 (k + 1),
      decayImportance_iterate_current m h0 k]
    push_cast
    omega
  · intro h
    rw [decayImportance_iterate_current m h0 k]
    omega

/-- Witness for C7: a zero-importance record stays at zero after a cycle. -/
theorem decay_monotone_until_zero_witness :
    (convM1 ∈ [convM1] ∧ 0 ≤ convM1.importance_current
      ∧ convM1.importance_current ≤ ((1 : ℕ) : ℤ))
    ∧ (decayImportance^[1] convM1).importance_current = 0 :=
  ⟨⟨by decide, by decide, by decide⟩,
   (decay_monotone_until_zero [convM1] convM1 1 (by decide)
     (by decide)).2.2.2.2 (by decide)⟩

/-! ### Entity upsert (`EntityRepository.upsert` /
`MemoryService.upsert_entity`) -/

/-- A row of the `komari_memory_entity` table. -/
structure EntityRow where
  user_id : String
  group_id : String
  key : String
  value : String
  category : String
  importance : ℤ
deriving Repr, DecidableEq

/-- The `WHERE user_id = $1 AND group_id = $2 AND key = $3` condition. -/
def entityMatches (u g k : String) (e : EntityRow) : Bool :=
  e.user_id == u && e.group_id == g && e.key == k

/-- `EntityRepository.upsert` (repositories/entity_repository.py) and the
identical `MemoryService.upsert_entity` (services/memory_service.py):
SELECT by the (user_id, group_id, key) triple; UPDATE value, category and
importance when a row exists, INSERT a fresh row otherwise. -/
def upsertEntity (db : List EntityRow) (u g k v c : String) (imp : ℤ) :
    List EntityRow :=
  if db.any (entityMatches u g k) then
    db.map (fun e =>
      if entityMatches u g k e then
        { e with value := v, category := c, importance := imp }
      else e)
  else db ++ [⟨u, g, k, v, c, imp⟩]

/-- Number of rows of a given (user_id, group_id, key) triple. -/
def countTriple (db : List EntityRow) (u g k : String) : ℕ :=
  (db.filter (entityMatches u g k)).length

theorem entityMatches_update (u g k v c : String) (imp : ℤ)
    (u' g' k' : String) (e : EntityRow) :
    entityMatches u' g' k'
      (if entityMatches u g k e then
        { e with value := v, category := c, importance := imp }
      else e)
      = entityMatches u' g' k' e := by
  by_cases h : entityMatches u g k e = true
  · rw [if_pos h]
    rfl
  · rw [if_neg h]

theorem length_filter_map_pred_eq {α : Type} (f : α → α) (p : α → Bool)
    (l : List α) (hf : ∀ e ∈ l, p (f e) = p e) :
    ((l.map f).filter p).length = (l.filter p).length := by
  induction l with
  | nil => rfl
  | cons a t ih =>
    have ha := hf a (by simp)
    have ht : ∀ e ∈ t, p (f e) = p e := fun e he => hf e (by simp [he])
    by_cases hpa : p a = true
    · simp only [List.map_cons, List.filter_cons, ha, hpa, List.length_cons]
      exact congrArg Nat.succ (ih ht)
    · have hpa' : p a = false := by simpa using hpa
      simp only [List.map_cons, List.filter_cons, ha, hpa']
      exact ih ht

theorem countTriple_upsert_self (db : List EntityRow) (u g k v c : String)
    (imp : ℤ) (h : countTriple db u g k ≤ 1) :
    countTriple (upsertEntity db u g k v c imp) u g k = 1 := by
  rw [upsertEntity]
  by_cases hany : db.any (entityMatches u g k) = true
  · rw [if_pos hany]
    rcases List.any_eq_true.1 hany with ⟨e, he, hem⟩
    have heq : countTriple (db.map (fun e =>
        if entityMatches u g k e then
          { e with value := v, category := c, importance := imp }
        else e)) u g k = countTriple db u g k := by
      rw [countTriple, countTriple]
      exact length_filter_map_pred_eq _ _ db
        (fun e _ => entityMatches_update u g k v c imp u g k e)
    rw [heq]
    have hpos : 0 < countTriple db u g k := by
      rw [countTriple]
      have : e ∈ db.filter (entityMatches u g k) := List.mem_filter.2 ⟨he, hem⟩
      exact List.length_pos.2 (fun hnil => by rw [hnil] at this; simp at this)
    omega
  · rw [if_neg hany]
    have hzero : db.filter (entityMatches u g k) = [] := by
      rw [List.filter_eq_nil_iff]
      intro e he hem
      exact hany (List.any_eq_true.2 ⟨e, he, hem⟩)
    rw [countTriple, List.filter_append, hzero]
    have : entityMatches u g k ⟨u, g, k, v, c, imp⟩ = true := by
      simp [entityMatches]
    simp [List.filter_cons, this]

theorem countTriple_upsert_other (db : List EntityRow) (u g k v c : String)
    (imp : ℤ) (u' g' k' : String) (hne : (u', g', k') ≠ (u, g, k)) :
    countTriple (upsertEntity db u g k v c imp) u' g' k'
      = countTriple db u' g' k' := by
  rw [upsertEntity]
  by_cases hany : db.any (entityMatches u g k) = true
  · rw [if_pos hany, countTriple, countTriple]
    exact length_filter_map_pred_eq _ _ db
      (fun e _ => entityMatches_update u g k v c imp u' g' k' e)
  · rw [if_neg hany]
    have hnew : entityMatches u' g' k' ⟨u, g, k, v, c, imp⟩ = false := by
      by_contra hcon
      rw [Bool.not_eq_false] at hcon
      rw [entityMatches] at hcon
      simp only [Bool.and_eq_true, beq_iff_eq] at hcon
      obtain ⟨⟨h1, h2⟩, h3⟩ := hcon
      exact hne (by rw [h1, h2, h3])
    rw [countTriple, List.filter_append]
    simp [List.filter_cons, hnew, countTriple]

theorem upsert_entity_matching_values (db : List EntityRow)
    (u g k v c : String) (imp : ℤ) (e : EntityRow)
    (he : e ∈ upsertEntity db u g k v c imp)
    (hm : entityMatches u g k e = true) :
    e.value = v ∧ e.category = c ∧ e.importance = imp := by
  rw [upsertEntity] at he
  by_cases hany : db.any (entityMatches u g k) = true
  · rw [if_pos hany] at he
    rcases List.mem_map.1 he with ⟨e₀, he₀, rfl⟩
    by_cases hm₀ : entityMatches u g k e₀ = true
    · rw [if_pos hm₀]
      exact ⟨rfl, rfl, rfl⟩
    · rw [if_neg hm₀] at hm
      exact absurd hm hm₀
  · rw [if_neg hany] at he
    rcases List.mem_append.1 he with h1 | h1
    · exact absurd (List.any_eq_true.2 ⟨e, h1, hm⟩) hany
    · rcases List.mem_singleton.1 h1 with rfl
      exact ⟨rfl, rfl, rfl⟩

/-- C8: `upsert_entity` keeps at most one row per (user_id, group_id, key)
triple: a single upsert leaves exactly one row for the upserted triple and
does not change the row count of any other triple, and after two upserts
with the same triple exactly one row remains, holding the second call's
value, category and importance. -/
theorem upsert_entity_primary_key (db : List EntityRow) (u g k v₁ c₁ : String)
    (i₁ : ℤ) (v₂ c₂ : String) (i₂ : ℤ) (h : countTriple db u g k ≤ 1) :
    countTriple (upsertEntity db u g k v₁ c₁ i₁) u g k = 1
    ∧ (∀ u' g' k', (u', g', k') ≠ (u, g, k) →
        countTriple (upsertEntity db u g k v₁ c₁ i₁) u' g' k'
          = countTriple db u' g' k')
    ∧ countTriple
        (upsertEntity (upsertEntity db u g k v₁ c₁ i₁) u g k v₂ c₂ i₂) u g k = 1
    ∧ (∀ e ∈ upsertEntity (upsertEntity db u g k v₁ c₁ i₁) u g k v₂ c₂ i₂,
        entityMatches u g k e = true →
        e.value = v₂ ∧ e.category = c₂ ∧ e.importance = i₂) := by
  have h1 := countTriple_upsert_self db u g k v₁ c₁ i₁ h
  refine ⟨h1, fun u' g' k' hne => countTriple_upsert_other db u g k v₁ c₁ i₁ u' g' k' hne,
    countTriple_upsert_self _ u g k v₂ c₂ i₂ (le_of_eq h1), ?_⟩
  exact fun e he hm => upsert_entity_matching_values _ u g k v₂ c₂ i₂ e he hm

/-- Witness for C8 on a concrete pair of upserts. -/
theorem upsert_entity_primary_key_witness :
    countTriple ([] : List EntityRow) "u1" "g1" "likes" ≤ 1
    ∧ countTriple
        (upsertEntity (upsertEntity [] "u1" "g1" "likes" "tea" "pref" 3)
          "u1" "g1" "likes" "coffee" "pref" 4) "u1" "g1" "likes" = 1 :=
  ⟨by decide,
   (upsert_entity_primary_key [] "u1" "g1" "likes" "tea" "pref" 3 "coffee"
     "pref" 4 (by decide)).2.2.1⟩
